import Mathlib

/-!
# Verification of the realtime-translation relay (web_server / web_translate_client / osc_manager)

A shallow embedding of the pure parts of the repository's Python sources:

* `osc_manager.py` — the chatbox text pipeline (`_truncate_text`,
  `_split_confirmed_unconfirmed`, `_insert_newlines_after_sentence_enders`,
  `_format_text_for_chatbox`);
* `web_server.py` — the `ReconnectManager` decision logic and the control/data
  flow of the `websocket_endpoint` receive loop;
* `web_translate_client.py` — the mute bridge (`pause_audio_processing`,
  `resume_audio_processing`, `_send_silence`) and the exit behaviour of
  `handle_server_messages`.

Python strings are modelled as `List Char` (one entry per Unicode code point,
matching Python `len`/indexing).  Python whitespace tests (`str.strip`, regex
`\s`) are modelled by the ASCII whitespace set, which is all that the texts in
question exercise.  Floating-point backoff arithmetic is modelled in `ℚ`: every
value the code computes (`1.0 * 2.0 ** n` capped at `30.0`) is exactly
representable, and `min (2^n) 30 = 30` for every `n ≥ 5` in both semantics.
-/

/-! ## Python string-operation models -/

/-- Model of the whitespace class used by Python `str.strip`/`str.lstrip` and
regex `\s` (ASCII fragment). -/
def isSpacePy (c : Char) : Bool :=
  c == ' ' || c == '\t' || c == '\n' || c == '\r' || c == '\x0b' || c == '\x0c'

/-- Python `str.lstrip()`. -/
def lstrip (s : List Char) : List Char := s.dropWhile isSpacePy

/-- Python `str.rstrip()`. -/
def rstrip (s : List Char) : List Char := (s.reverse.dropWhile isSpacePy).reverse

/-- Python `str.strip()`. -/
def strip (s : List Char) : List Char := lstrip (rstrip s)

/-- `listStartsWith pat s` = "`pat` is a prefix of `s`" (Boolean). -/
def listStartsWith : List Char → List Char → Bool
  | [], _ => true
  | _ :: _, [] => false
  | p :: ps, c :: cs => p == c && listStartsWith ps cs

/-- Python `str.find(pat)`: index of the first occurrence of `pat`
(`none` = Python's `-1`). -/
def findSub : List Char → List Char → Option Nat
  | s, pat =>
    if listStartsWith pat s then some 0
    else
      match s with
      | [] => none
      | _ :: cs => (findSub cs pat).map (· + 1)

/-- Python `str.rfind(pat)`: index of the last occurrence of `pat`
(`none` = Python's `-1`). -/
def rfindSub : List Char → List Char → Option Nat
  | [], pat => if listStartsWith pat [] then some 0 else none
  | c :: cs, pat =>
    match rfindSub cs pat with
    | some i => some (i + 1)
    | none => if listStartsWith pat (c :: cs) then some 0 else none

/-- The scan of Python `str.replace(pat, rep)` (all occurrences, left to
right, non-overlapping).  The first argument is fuel: every recursive call
strictly shortens the text, so `s.length` steps always suffice and the
fuel-exhaustion arm is never semantically relevant. -/
def replaceGo (pat rep : List Char) : Nat → List Char → List Char
  | 0, s => s
  | _ + 1, [] => []
  | fuel + 1, c :: cs =>
    if !pat.isEmpty && listStartsWith pat (c :: cs) then
      rep ++ replaceGo pat rep fuel (List.drop (pat.length - 1) cs)
    else
      c :: replaceGo pat rep fuel cs

/-- Python `str.replace(pat, rep)`; `pat` is non-empty at every call site. -/
def replaceList (pat rep s : List Char) : List Char :=
  replaceGo pat rep s.length s

/-! ## `OSCManager._truncate_text` (osc_manager.py lines 125–166) -/

/-- The `SENTENCE_ENDERS` list of `_truncate_text`, verbatim from the source
(note the three-dot ellipsis entry is a 3-character string). -/
def SENTENCE_ENDERS : List (List Char) :=
  [['.'], ['?'], ['!'], [','],
   ['。'], ['？'], ['！'], ['，'],
   ['…'], ['.', '.', '.'], ['‽'],
   ['։'], ['؟'], [';'], ['،'],
   ['।'], ['॥'], ['።'], ['။'], ['།'],
   ['、'], ['‚'], ['٫']]

/-- One step of the `for ender in SENTENCE_ENDERS` scan inside
`_truncate_text`: keep the smaller found index. -/
def fseStep (text : List Char) (acc : Option Nat) (ender : List Char) : Option Nat :=
  match findSub text ender, acc with
  | some i, some b => if i < b then some i else some b
  | some i, none => some i
  | none, a => a

/-- The scan inside `_truncate_text` that computes `first_sentence_end`:
the minimum over all enders of `text.find(ender)`, ignoring misses. -/
def first_sentence_end (text : List Char) : Option Nat :=
  SENTENCE_ENDERS.foldl (fseStep text) none

/-- The `while len(text) > max_length` loop of `_truncate_text`: drop the first
sentence (and following whitespace) while the text is too long; if no sentence
ender exists, keep only the trailing `max_length` characters.  The first
argument is loop fuel: each iteration with a found ender shortens the text by
at least one character, so `text.length` iterations always suffice and the
fuel-exhaustion arm is never semantically relevant. -/
def truncGo : Nat → Nat → List Char → List Char
  | 0, _, text => text
  | fuel + 1, max_length, text =>
    if text.length ≤ max_length then text
    else
      match first_sentence_end text with
      | some idx => truncGo fuel max_length (lstrip (text.drop (idx + 1)))
      | none => text.drop (text.length - max_length)

/-- `OSCManager._truncate_text(text, max_length=144)`. -/
def _truncate_text (text : List Char) (max_length : Nat := 144) : List Char :=
  if text.length ≤ max_length then text
  else truncGo text.length max_length text

theorem truncGo_length_le (m : Nat) :
    ∀ (n : Nat) (t : List Char), t.length ≤ n → (truncGo n m t).length ≤ m := by
  intro n
  induction n with
  | zero =>
    intro t ht
    simp only [Nat.le_zero, List.length_eq_zero] at ht
    subst ht
    simp [truncGo]
  | succ n ih =>
    intro t ht
    rw [truncGo]
    by_cases hlen : t.length ≤ m
    · simp [hlen]
    · simp only [hlen, if_false]
      match hfe : first_sentence_end t with
      | some idx =>
        apply ih
        have h1 : (lstrip (t.drop (idx + 1))).length ≤ (t.drop (idx + 1)).length :=
          (List.dropWhile_sublist _).length_le
        simp only [List.length_drop] at h1
        omega
      | none =>
        simp only [List.length_drop]
        omega

theorem _truncate_text_length_le (t : List Char) (m : Nat) :
    (_truncate_text t m).length ≤ m := by
  rw [_truncate_text]
  by_cases h : t.length ≤ m
  · simp [h]
  · simp only [h, if_false]
    exact truncGo_length_le m t.length t le_rfl

/-- **C2.** `_truncate_text` always returns at most 144 characters, and it is
idempotent: truncating a second time returns the first result unchanged. -/
theorem c2_truncate_bounded_and_idempotent (t : List Char) :
    (_truncate_text t 144).length ≤ 144 ∧
      _truncate_text (_truncate_text t 144) 144 = _truncate_text t 144 := by
  refine ⟨_truncate_text_length_le t 144, ?_⟩
  have h := _truncate_text_length_le t 144
  rw [_truncate_text]
  simp [h]

/-! ## Final-sentence preservation of `_truncate_text` (claim C7)

`finalSentence` is the specification-side notion used by the claim "the
returned text's final sentence equals the input's final sentence": the text
after the last sentence-ending character, with leading whitespace stripped
(matching the `lstrip` the code applies when it cuts at punctuation). -/

/-- The individual sentence-ending characters of `SENTENCE_ENDERS`
(the `'...'` entry is covered by `'.'`). -/
def enderChars : List Char :=
  ['.', '?', '!', ',', '。', '？', '！', '，', '…', '‽',
   '։', '؟', ';', '،', '।', '॥', '።', '။', '།', '、', '‚', '٫']

def isEnder (c : Char) : Bool := enderChars.contains c

/-- The part of `t` strictly after the last sentence-ending character
(all of `t` if there is none). -/
def tailAfterLastEnder (t : List Char) : List Char :=
  (t.reverse.takeWhile (fun c => !isEnder c)).reverse

/-- The final sentence of `t`: text after the last sentence ender, with
leading whitespace stripped. -/
def finalSentence (t : List Char) : List Char := lstrip (tailAfterLastEnder t)

theorem takeWhile_append_of_not (p : Char → Bool) (e : Char) (he : p e = false) :
    ∀ (A B : List Char), List.takeWhile p (A ++ e :: B) = List.takeWhile p A := by
  intro A B
  induction A with
  | nil => simp [List.takeWhile_cons, he]
  | cons a A ih =>
    simp only [List.cons_append, List.takeWhile_cons]
    by_cases ha : p a <;> simp [ha, ih]

theorem tailAfterLastEnder_append_ender (A B : List Char) (e : Char)
    (he : isEnder e = true) :
    tailAfterLastEnder (A ++ e :: B) = tailAfterLastEnder B := by
  unfold tailAfterLastEnder
  have h1 : (A ++ e :: B).reverse = B.reverse ++ e :: A.reverse := by
    simp [List.reverse_append, List.reverse_cons, List.append_assoc]
  rw [h1, takeWhile_append_of_not _ e (by simp [he])]

theorem tailAfterLastEnder_of_no_ender (t : List Char)
    (h : ∀ c ∈ t, isEnder c = false) : tailAfterLastEnder t = t := by
  unfold tailAfterLastEnder
  have : List.takeWhile (fun c => !isEnder c) t.reverse = t.reverse := by
    rw [List.takeWhile_eq_self_iff]
    intro c hc
    simp [h c (List.mem_reverse.mp hc)]
  rw [this, List.reverse_reverse]

theorem lstrip_idem (s : List Char) : lstrip (lstrip s) = lstrip s := by
  unfold lstrip
  induction s with
  | nil => simp
  | cons a l ih =>
    by_cases ha : isSpacePy a
    · simpa [List.dropWhile_cons, ha] using ih
    · simp [List.dropWhile_cons, ha]

theorem lstrip_allspace_append (A x : List Char) (hA : ∀ c ∈ A, isSpacePy c = true) :
    lstrip (A ++ x) = lstrip x := by
  induction A with
  | nil => rfl
  | cons a A ih =>
    have ha : isSpacePy a = true := hA a (by simp)
    simp only [List.cons_append]
    unfold lstrip
    rw [List.dropWhile_cons, ha, if_pos rfl]
    exact ih (fun c hc => hA c (by simp [hc]))

theorem mem_lstrip {c : Char} {s : List Char} (h : c ∈ lstrip s) : c ∈ s :=
  (List.dropWhile_sublist _).subset h

theorem exists_ender_decomp (t : List Char) (h : t.any isEnder = true) :
    ∃ A e B, t = A ++ e :: B ∧ isEnder e = true := by
  induction t with
  | nil => simp at h
  | cons c cs ih =>
    by_cases hc : isEnder c
    · exact ⟨[], c, cs, rfl, hc⟩
    · have : cs.any isEnder = true := by
        rcases List.any_eq_true.mp h with ⟨x, hx, hxe⟩
        rcases List.mem_cons.mp hx with rfl | hx'
        · exact absurd hxe (by simp [hc])
        · exact List.any_eq_true.mpr ⟨x, hx', hxe⟩
      obtain ⟨A, e, B, rfl, he⟩ := ih this
      exact ⟨c :: A, e, B, rfl, he⟩

theorem mem_of_isEnder {c : Char} (h : isEnder c = true) : c ∈ enderChars := by
  unfold isEnder at h
  rw [List.contains_eq_any_beq] at h
  rcases List.any_eq_true.mp h with ⟨x, hx, hbe⟩
  have : c = x := by simpa using hbe
  rwa [this]

theorem ender_not_space {c : Char} (h : isEnder c = true) : isSpacePy c = false := by
  have hm := mem_of_isEnder h
  fin_cases hm <;> decide

theorem lstrip_append_keep (A B : List Char) (e : Char) (he : isSpacePy e = false) :
    ∃ A', lstrip (A ++ e :: B) = A' ++ e :: B := by
  induction A with
  | nil => exact ⟨[], by simp [lstrip, List.dropWhile_cons, he]⟩
  | cons a A ih =>
    by_cases ha : isSpacePy a
    · obtain ⟨A', hA'⟩ := ih
      exact ⟨A', by simpa [lstrip, List.dropWhile_cons, ha] using hA'⟩
    · exact ⟨a :: A, by simp [lstrip, List.dropWhile_cons, ha]⟩

theorem finalSentence_lstrip (y : List Char) :
    finalSentence (lstrip y) = finalSentence y := by
  by_cases hany : y.any isEnder = true
  · obtain ⟨A, e, B, rfl, he⟩ := exists_ender_decomp y hany
    obtain ⟨A', hA'⟩ := lstrip_append_keep A B e (ender_not_space he)
    unfold finalSentence
    rw [hA', tailAfterLastEnder_append_ender A' B e he,
      tailAfterLastEnder_append_ender A B e he]
  · have hno : ∀ c ∈ y, isEnder c = false := by
      intro c hc
      by_contra hc'
      exact hany (List.any_eq_true.mpr ⟨c, hc, by simpa using hc'⟩)
    have hno' : ∀ c ∈ lstrip y, isEnder c = false := fun c hc => hno c (mem_lstrip hc)
    unfold finalSentence
    rw [tailAfterLastEnder_of_no_ender _ hno, tailAfterLastEnder_of_no_ender _ hno',
      lstrip_idem]

theorem listStartsWith_cons_inv {p : Char} {ps s : List Char}
    (h : listStartsWith (p :: ps) s = true) :
    ∃ s', s = p :: s' ∧ listStartsWith ps s' = true := by
  cases s with
  | nil => simp [listStartsWith] at h
  | cons c cs =>
    simp only [listStartsWith, Bool.and_eq_true, beq_iff_eq] at h
    exact ⟨cs, by rw [h.1], h.2⟩

theorem fseStep_find_none {t e : List Char} {acc : Option Nat}
    (h : findSub t e = none) : fseStep t acc e = acc := by
  unfold fseStep
  rw [h]

theorem fseStep_find_some_none {t e : List Char} {i : Nat}
    (h : findSub t e = some i) : fseStep t none e = some i := by
  unfold fseStep
  rw [h]

theorem fseStep_find_some_some {t e : List Char} {i b : Nat}
    (h : findSub t e = some i) :
    fseStep t (some b) e = if i < b then some i else some b := by
  unfold fseStep
  rw [h]

theorem findSub_some_match :
    ∀ (s pat : List Char) (i : Nat), findSub s pat = some i →
      listStartsWith pat (s.drop i) = true := by
  intro s
  induction s with
  | nil =>
    intro pat i h
    rw [findSub] at h
    cases hs : listStartsWith pat [] with
    | true =>
      rw [hs] at h
      simp only [if_true, Option.some.injEq] at h
      subst h
      simpa using hs
    | false => rw [hs] at h; simp at h
  | cons c cs ih =>
    intro pat i h
    rw [findSub] at h
    cases hs : listStartsWith pat (c :: cs) with
    | true =>
      rw [hs] at h
      simp only [if_true, Option.some.injEq] at h
      subst h
      simpa using hs
    | false =>
      rw [hs] at h
      simp only [Bool.false_eq_true, if_false] at h
      rcases Option.map_eq_some'.mp h with ⟨j, hj, rfl⟩
      rw [List.drop_succ_cons]
      exact ih pat j hj

theorem findSub_none :
    ∀ (s pat : List Char), findSub s pat = none →
      ∀ j, listStartsWith pat (s.drop j) = false := by
  intro s
  induction s with
  | nil =>
    intro pat h j
    rw [findSub] at h
    cases hs : listStartsWith pat [] with
    | true => rw [hs] at h; simp at h
    | false => simpa [List.drop_nil] using hs
  | cons c cs ih =>
    intro pat h j
    rw [findSub] at h
    cases hs : listStartsWith pat (c :: cs) with
    | true => rw [hs] at h; simp at h
    | false =>
      rw [hs] at h
      simp only [Bool.false_eq_true, if_false, Option.map_eq_none'] at h
      match j with
      | 0 => simpa using hs
      | j + 1 =>
        rw [List.drop_succ_cons]
        exact ih pat h j

theorem findSub_single_none {s : List Char} {c : Char}
    (h : findSub s [c] = none) : c ∉ s := by
  induction s with
  | nil => simp
  | cons a cs ih =>
    rw [findSub] at h
    cases hs : listStartsWith [c] (a :: cs) with
    | true => rw [hs] at h; simp at h
    | false =>
      rw [hs] at h
      simp only [Bool.false_eq_true, if_false, Option.map_eq_none'] at h
      have hca : ¬(c = a) := by
        intro hx
        rw [show listStartsWith [c] (a :: cs) = (c == a && listStartsWith [] cs) from rfl]
          at hs
        simp [hx, listStartsWith] at hs
      simp only [List.mem_cons, not_or]
      exact ⟨hca, ih h⟩

theorem fse_fold_some (t : List Char) :
    ∀ (l : List (List Char)) (acc : Option Nat) (p : Nat),
      l.foldl (fseStep t) acc = some p →
      acc = some p ∨ ∃ pat ∈ l, findSub t pat = some p := by
  intro l
  induction l with
  | nil => intro acc p h; exact Or.inl h
  | cons e l ih =>
    intro acc p h
    rcases ih (fseStep t acc e) p h with hstep | ⟨pat, hm, hf⟩
    · cases hfe : findSub t e with
      | none => rw [fseStep_find_none hfe] at hstep; exact Or.inl hstep
      | some i =>
        cases hacc : acc with
        | none =>
          rw [hacc, fseStep_find_some_none hfe] at hstep
          exact Or.inr ⟨e, by simp, hfe.trans hstep⟩
        | some b =>
          rw [hacc, fseStep_find_some_some hfe] at hstep
          by_cases hib : i < b
          · rw [if_pos hib] at hstep
            exact Or.inr ⟨e, by simp, hfe.trans hstep⟩
          · rw [if_neg hib] at hstep
            exact Or.inl hstep
    · exact Or.inr ⟨pat, by simp [hm], hf⟩

theorem fse_fold_none (t : List Char) :
    ∀ (l : List (List Char)) (acc : Option Nat),
      l.foldl (fseStep t) acc = none →
      acc = none ∧ ∀ pat ∈ l, findSub t pat = none := by
  intro l
  induction l with
  | nil => intro acc h; exact ⟨h, by simp⟩
  | cons e l ih =>
    intro acc h
    obtain ⟨hstep, hrest⟩ := ih (fseStep t acc e) h
    cases hfe : findSub t e with
    | none =>
      rw [fseStep_find_none hfe] at hstep
      refine ⟨hstep, ?_⟩
      intro pat hp
      rcases List.mem_cons.mp hp with rfl | hp'
      · exact hfe
      · exact hrest pat hp'
    | some i =>
      exfalso
      cases hacc : acc with
      | none => rw [hacc, fseStep_find_some_none hfe] at hstep; simp at hstep
      | some b =>
        rw [hacc, fseStep_find_some_some hfe] at hstep
        by_cases hib : i < b <;> simp [hib] at hstep


theorem first_sentence_end_some {t : List Char} {p : Nat}
    (h : first_sentence_end t = some p) :
    ∃ pat ∈ SENTENCE_ENDERS, findSub t pat = some p := by
  rcases fse_fold_some t SENTENCE_ENDERS none p h with hx | hx
  · exact absurd hx (by simp)
  · exact hx

theorem first_sentence_end_none {t : List Char}
    (h : first_sentence_end t = none) :
    ∀ pat ∈ SENTENCE_ENDERS, findSub t pat = none :=
  (fse_fold_none t SENTENCE_ENDERS none h).2

theorem enders_head :
    ∀ pat ∈ SENTENCE_ENDERS, ∃ c ps, pat = c :: ps ∧ isEnder c = true := by
  intro pat h
  fin_cases h <;> exact ⟨_, _, rfl, by decide⟩

theorem enderChar_pattern : ∀ c ∈ enderChars, [c] ∈ SENTENCE_ENDERS := by
  decide

theorem step_finalSentence {t : List Char} {p : Nat}
    (h : first_sentence_end t = some p) :
    finalSentence (lstrip (t.drop (p + 1))) = finalSentence t := by
  obtain ⟨pat, hmem, hfind⟩ := first_sentence_end_some h
  obtain ⟨c, ps, rfl, hc⟩ := enders_head pat hmem
  have hsw := findSub_some_match _ _ _ hfind
  obtain ⟨Y, hY, _⟩ := listStartsWith_cons_inv hsw
  have ht : t = t.take p ++ c :: Y := by
    conv_lhs => rw [← List.take_append_drop p t]
    rw [hY]
  have hdropY : t.drop (p + 1) = Y := by
    have h1 : List.drop 1 (t.drop p) = t.drop (p + 1) := List.drop_drop 1 p t
    rw [← h1, hY]
    rfl
  rw [hdropY, finalSentence_lstrip]
  unfold finalSentence
  conv_rhs => rw [ht]
  rw [tailAfterLastEnder_append_ender _ _ _ hc]

theorem fallback_finalSentence {t : List Char} {m : Nat}
    (hnone : first_sentence_end t = none)
    (hfit : (finalSentence t).length ≤ m) :
    finalSentence (t.drop (t.length - m)) = finalSentence t := by
  have hnoE : ∀ c ∈ t, isEnder c = false := by
    intro c hc
    by_contra hc'
    have hc2 : isEnder c = true := by simpa using hc'
    have hpat : [c] ∈ SENTENCE_ENDERS := enderChar_pattern c (mem_of_isEnder hc2)
    exact findSub_single_none (first_sentence_end_none hnone [c] hpat) hc
  have htail : tailAfterLastEnder t = t := tailAfterLastEnder_of_no_ender t hnoE
  have hfs : finalSentence t = lstrip t := by unfold finalSentence; rw [htail]
  have hsplit : t.takeWhile isSpacePy ++ lstrip t = t := List.takeWhile_append_dropWhile _ _
  have hlenfit : (lstrip t).length ≤ m := by rw [hfs] at hfit; exact hfit
  have hlensum : (t.takeWhile isSpacePy).length + (lstrip t).length = t.length := by
    rw [← List.length_append, hsplit]
  have hlen : t.length - m ≤ (t.takeWhile isSpacePy).length := by omega
  have hdrop : t.drop (t.length - m) =
      (t.takeWhile isSpacePy).drop (t.length - m) ++ lstrip t := by
    have hd := @List.drop_append_of_le_length Char (t.takeWhile isSpacePy) (lstrip t) (t.length - m) hlen
    rw [hsplit] at hd
    exact hd
  have hA : ∀ c ∈ (t.takeWhile isSpacePy).drop (t.length - m), isSpacePy c = true :=
    fun c hc => List.mem_takeWhile_imp (List.mem_of_mem_drop hc)
  have hnoE' : ∀ c ∈ t.drop (t.length - m), isEnder c = false :=
    fun c hc => hnoE c (List.mem_of_mem_drop hc)
  unfold finalSentence
  rw [tailAfterLastEnder_of_no_ender _ hnoE', htail, hdrop,
    lstrip_allspace_append _ _ hA, lstrip_idem]

theorem truncGo_finalSentence (m : Nat) :
    ∀ (n : Nat) (t : List Char), t.length ≤ n →
      (finalSentence t).length ≤ m →
      finalSentence (truncGo n m t) = finalSentence t := by
  intro n
  induction n with
  | zero =>
    intro t ht hfit
    rw [truncGo]
  | succ n ih =>
    intro t ht hfit
    rw [truncGo]
    by_cases hlen : t.length ≤ m
    · simp [hlen]
    · simp only [hlen, if_false]
      match hfe : first_sentence_end t with
      | some idx =>
        have hstep := step_finalSentence hfe
        have hlen' : (lstrip (t.drop (idx + 1))).length ≤ n := by
          have h1 : (lstrip (t.drop (idx + 1))).length ≤ (t.drop (idx + 1)).length :=
            (List.dropWhile_sublist _).length_le
          simp only [List.length_drop] at h1
          omega
        have hfit' : (finalSentence (lstrip (t.drop (idx + 1)))).length ≤ m := by
          rw [hstep]; exact hfit
        rw [ih _ hlen' hfit', hstep]
      | none => exact fallback_finalSentence hfe hfit

/-- **C7 (amended).** If a multi-sentence text longer than 144 characters has a
final sentence of at most 144 characters, `_truncate_text` preserves that final
sentence.  (The unamended claim fails when the final sentence itself exceeds
the limit: the no-punctuation fallback then keeps only its trailing
144 characters — see `c7_counterexample`.) -/
theorem c7_final_sentence_preserved (t : List Char)
    (_hlong : 144 < t.length) (_hmulti : t.any isEnder = true)
    (hfit : (finalSentence t).length ≤ 144) :
    finalSentence (_truncate_text t 144) = finalSentence t := by
  rw [_truncate_text]
  by_cases h : t.length ≤ 144
  · simp [h]
  · simp only [h, if_false]
    exact truncGo_finalSentence 144 t.length t le_rfl hfit

/-- Concrete witness input for C7 (amended): 140 `a`s, a period, 10 `b`s. -/
def c7w : List Char := List.replicate 140 'a' ++ '.' :: List.replicate 10 'b'

set_option maxRecDepth 100000

theorem c7_final_sentence_preserved_witness :
    144 < c7w.length ∧ c7w.any isEnder = true ∧
      (finalSentence c7w).length ≤ 144 ∧
      finalSentence (_truncate_text c7w 144) = finalSentence c7w :=
  ⟨by decide, by decide, by decide,
    c7_final_sentence_preserved c7w (by decide) (by decide) (by decide)⟩

/-- Concrete counterexample input for C7 as stated: a two-sentence text whose
second sentence is 150 characters of `b`. -/
def c7x : List Char := 'A' :: '.' :: List.replicate 150 'b'

/-- **C7 counterexample.** `c7x` is multi-sentence and longer than 144
characters, yet truncation does not preserve its final sentence: the fallback
keeps only the trailing 144 of its 150 `b`s. -/
theorem c7_counterexample :
    144 < c7x.length ∧ c7x.any isEnder = true ∧
      finalSentence (_truncate_text c7x 144) ≠ finalSentence c7x :=
  ⟨by decide, by decide, by decide⟩

/-! ## `OSCManager._split_confirmed_unconfirmed` (osc_manager.py lines 193–226) -/

/-- The primary confirmed/unconfirmed delimiter, three ASCII dots. -/
def dots3 : List Char := ['.', '.', '.']

/-- The fallback delimiter, the doubled CJK horizontal ellipsis. -/
def cjkEllipsis : List Char := ['…', '…']

/-- `text.replace("\r\n", "\n").replace("\r", "\n")`. -/
def normalizeNewlines (s : List Char) : List Char :=
  replaceList ['\r'] ['\n'] (replaceList ['\r', '\n'] ['\n'] s)

/-- The inner `find_last_delim` of `_split_confirmed_unconfirmed`: the last
occurrence of `delim` such that both sides are non-empty after stripping. -/
def find_last_delim (t delim : List Char) : Option Nat :=
  match rfindSub t delim with
  | none => none
  | some idx =>
    if strip (t.take idx) ≠ [] ∧ strip (t.drop (idx + delim.length)) ≠ [] then some idx
    else none

/-- The delimiter search order of `_split_confirmed_unconfirmed`: a valid
`"..."` candidate first, then a valid `"……"` candidate. -/
def splitFound (t : List Char) : Option (Nat × List Char) :=
  match find_last_delim t dots3 with
  | some idx => some (idx, dots3)
  | none =>
    match find_last_delim t cjkEllipsis with
    | some idx => some (idx, cjkEllipsis)
    | none => none

/-- `OSCManager._split_confirmed_unconfirmed(text)`: split into
`(confirmed, delimiter, unconfirmed)`, or `none`. -/
def _split_confirmed_unconfirmed (text : List Char) :
    Option (List Char × List Char × List Char) :=
  if text = [] then none
  else
    match splitFound (normalizeNewlines text) with
    | none => none
    | some (idx, delim) =>
      some (rstrip ((normalizeNewlines text).take idx), delim,
        strip ((normalizeNewlines text).drop (idx + delim.length)))

theorem rfindSub_some_match :
    ∀ (s pat : List Char) (i : Nat), rfindSub s pat = some i →
      listStartsWith pat (s.drop i) = true := by
  intro s
  induction s with
  | nil =>
    intro pat i h
    rw [rfindSub] at h
    cases hs : listStartsWith pat [] with
    | true =>
      rw [hs] at h
      simp only [if_true, Option.some.injEq] at h
      subst h
      simpa using hs
    | false => rw [hs] at h; simp at h
  | cons c cs ih =>
    intro pat i h
    rw [rfindSub] at h
    cases hr : rfindSub cs pat with
    | some j =>
      rw [hr] at h
      have h' : some (j + 1) = some i := h
      have hij : i = j + 1 := (Option.some.injEq _ _ ▸ h').symm
      subst hij
      rw [List.drop_succ_cons]
      exact ih pat j hr
    | none =>
      rw [hr] at h
      cases hs : listStartsWith pat (c :: cs) with
      | true =>
        rw [hs] at h
        have h' : some 0 = some i := h
        have hi : i = 0 := (Option.some.injEq _ _ ▸ h').symm
        subst hi
        simpa using hs
      | false => rw [hs] at h; simp at h

theorem rfindSub_none :
    ∀ (s pat : List Char), rfindSub s pat = none →
      ∀ j, listStartsWith pat (s.drop j) = false := by
  intro s
  induction s with
  | nil =>
    intro pat h j
    rw [rfindSub] at h
    cases hs : listStartsWith pat [] with
    | true => rw [hs] at h; simp at h
    | false => simpa [List.drop_nil] using hs
  | cons c cs ih =>
    intro pat h j
    rw [rfindSub] at h
    cases hr : rfindSub cs pat with
    | some k => rw [hr] at h; simp at h
    | none =>
      rw [hr] at h
      cases hs : listStartsWith pat (c :: cs) with
      | true => rw [hs] at h; simp at h
      | false =>
        match j with
        | 0 => simpa using hs
        | j + 1 =>
          rw [List.drop_succ_cons]
          exact ih pat hr j

theorem rfindSub_last :
    ∀ (s pat : List Char) (i : Nat), pat ≠ [] → rfindSub s pat = some i →
      ∀ j, listStartsWith pat (s.drop j) = true → j ≤ i := by
  intro s
  induction s with
  | nil =>
    intro pat i hpat h j hj
    rw [rfindSub] at h
    cases hs : listStartsWith pat [] with
    | true =>
      exfalso
      match pat, hpat with
      | p :: ps, _ => simp [listStartsWith] at hs
    | false => rw [hs] at h; simp at h
  | cons c cs ih =>
    intro pat i hpat h j hj
    rw [rfindSub] at h
    cases hr : rfindSub cs pat with
    | some k =>
      rw [hr] at h
      have h' : some (k + 1) = some i := h
      have hik : i = k + 1 := (Option.some.injEq _ _ ▸ h').symm
      subst hik
      match j with
      | 0 => omega
      | j + 1 =>
        rw [List.drop_succ_cons] at hj
        have := ih pat k hpat hr j hj
        omega
    | none =>
      rw [hr] at h
      cases hs : listStartsWith pat (c :: cs) with
      | true =>
        rw [hs] at h
        have h' : some 0 = some i := h
        have hi : i = 0 := (Option.some.injEq _ _ ▸ h').symm
        subst hi
        match j with
        | 0 => omega
        | j + 1 =>
          exfalso
          rw [List.drop_succ_cons] at hj
          exact absurd hj (by simp [rfindSub_none cs pat hr j])
      | false => rw [hs] at h; simp at h

theorem find_last_delim_some {t delim : List Char} {idx : Nat}
    (h : find_last_delim t delim = some idx) :
    rfindSub t delim = some idx ∧ strip (t.take idx) ≠ [] ∧
      strip (t.drop (idx + delim.length)) ≠ [] := by
  unfold find_last_delim at h
  cases hr : rfindSub t delim with
  | none => rw [hr] at h; exact absurd h (by simp)
  | some i =>
    rw [hr] at h
    have h' : (if strip (t.take i) ≠ [] ∧ strip (t.drop (i + delim.length)) ≠ []
        then some i else none) = some idx := h
    by_cases hg : strip (t.take i) ≠ [] ∧ strip (t.drop (i + delim.length)) ≠ []
    · rw [if_pos hg] at h'
      have hi : i = idx := by simpa using h'
      subst hi
      exact ⟨rfl, hg.1, hg.2⟩
    · rw [if_neg hg] at h'
      exact absurd h' (by simp)

theorem splitFound_some {t : List Char} {idx : Nat} {delim : List Char}
    (h : splitFound t = some (idx, delim)) :
    (delim = dots3 ∧ find_last_delim t dots3 = some idx) ∨
      (delim = cjkEllipsis ∧ find_last_delim t dots3 = none ∧
        find_last_delim t cjkEllipsis = some idx) := by
  unfold splitFound at h
  cases h1 : find_last_delim t dots3 with
  | some i =>
    rw [h1] at h
    have h' : some (i, dots3) = some (idx, delim) := h
    have hi : i = idx ∧ dots3 = delim := by simpa using h'
    exact Or.inl ⟨hi.2.symm, by rw [hi.1]⟩
  | none =>
    rw [h1] at h
    cases h2 : find_last_delim t cjkEllipsis with
    | some i =>
      rw [h2] at h
      have h' : some (i, cjkEllipsis) = some (idx, delim) := h
      have hi : i = idx ∧ cjkEllipsis = delim := by simpa using h'
      exact Or.inr ⟨hi.2.symm, rfl, by rw [hi.1]⟩
    | none => rw [h2] at h; exact absurd h (by simp)

theorem split_some_inv {t c d u : List Char}
    (h : _split_confirmed_unconfirmed t = some (c, d, u)) :
    ∃ idx, splitFound (normalizeNewlines t) = some (idx, d) ∧
      c = rstrip ((normalizeNewlines t).take idx) ∧
      u = strip ((normalizeNewlines t).drop (idx + d.length)) := by
  unfold _split_confirmed_unconfirmed at h
  by_cases ht : t = []
  · rw [if_pos ht] at h; exact absurd h (by simp)
  · rw [if_neg ht] at h
    obtain ⟨pr, hsf⟩ : ∃ pr, splitFound (normalizeNewlines t) = some pr := by
      cases hq : splitFound (normalizeNewlines t) with
      | none => rw [hq] at h; exact absurd h (by simp)
      | some pr => exact ⟨pr, rfl⟩
    obtain ⟨idx, delim⟩ := pr
    rw [hsf] at h
    have h' : some (rstrip ((normalizeNewlines t).take idx), delim,
        strip ((normalizeNewlines t).drop (idx + delim.length))) = some (c, d, u) := h
    have h'' : rstrip ((normalizeNewlines t).take idx) = c ∧ delim = d ∧
        strip ((normalizeNewlines t).drop (idx + delim.length)) = u := by
      simpa [Prod.ext_iff] using h'
    obtain ⟨h1, h2, h3⟩ := h''
    subst h2
    exact ⟨idx, hsf, h1.symm, h3.symm⟩

/-- **C6.** The confirmed/unconfirmed split: the four concrete behaviours the
claim lists, and, for every successful split, the delimiter is `"..."` or —
only when no valid `"..."` candidate exists — `"……"`, it is taken at its
*last* occurrence in the normalized text, both sides of that occurrence are
non-empty after trimming, and the returned parts are the trimmed sides. -/
theorem c6_split_behavior :
    (_split_confirmed_unconfirmed ("A.B...C".data) =
        some ("A.B".data, dots3, "C".data)) ∧
    (_split_confirmed_unconfirmed ("no delimiter here".data) = none) ∧
    (_split_confirmed_unconfirmed ("...leading".data) = none) ∧
    (_split_confirmed_unconfirmed ("trailing...".data) = none) ∧
    (∀ t c d u, _split_confirmed_unconfirmed t = some (c, d, u) →
      (d = dots3 ∨ d = cjkEllipsis) ∧
      (d = cjkEllipsis → find_last_delim (normalizeNewlines t) dots3 = none) ∧
      ∃ i, listStartsWith d ((normalizeNewlines t).drop i) = true ∧
        (∀ j, listStartsWith d ((normalizeNewlines t).drop j) = true → j ≤ i) ∧
        strip ((normalizeNewlines t).take i) ≠ [] ∧
        c = rstrip ((normalizeNewlines t).take i) ∧
        u = strip ((normalizeNewlines t).drop (i + d.length)) ∧ u ≠ []) := by
  refine ⟨by decide, by decide, by decide, by decide, ?_⟩
  intro t c d u h
  obtain ⟨idx, hsf, hc, hu⟩ := split_some_inv h
  rcases splitFound_some hsf with ⟨hd, hfld⟩ | ⟨hd, hnone, hfld⟩
  · obtain ⟨hr, hleft, hright⟩ := find_last_delim_some hfld
    subst hd
    refine ⟨Or.inl rfl, fun hcjk => absurd hcjk (by decide), idx,
      rfindSub_some_match _ _ _ hr, rfindSub_last _ _ _ (by decide) hr,
      hleft, hc, hu, ?_⟩
    rw [hu]
    exact hright
  · obtain ⟨hr, hleft, hright⟩ := find_last_delim_some hfld
    subst hd
    refine ⟨Or.inr rfl, fun _ => hnone, idx,
      rfindSub_some_match _ _ _ hr, rfindSub_last _ _ _ (by decide) hr,
      hleft, hc, hu, ?_⟩
    rw [hu]
    exact hright

theorem c6_split_behavior_witness :
    _split_confirmed_unconfirmed ("A...B".data) =
        some ("A".data, dots3, "B".data) ∧
      (dots3 = dots3 ∨ dots3 = cjkEllipsis) :=
  ⟨by decide,
    (c6_split_behavior.2.2.2.2 ("A...B".data) ("A".data) dots3 ("B".data)
      (by decide)).1⟩

/-! ## `ReconnectManager` (web_server.py lines 28–82) -/

def MAX_RECONNECT_ATTEMPTS : Nat := 5

def INITIAL_RECONNECT_DELAY : ℚ := 1

def MAX_RECONNECT_DELAY : ℚ := 30

def RECONNECT_BACKOFF_FACTOR : ℚ := 2

/-- The retryable close/error codes listed in `should_reconnect`. -/
def RETRYABLE_CODES : List Int := [1006, 1011, 1012, 1013, 1014, 1015]

/-- `ReconnectManager.should_reconnect(error_code)`, with
`self.reconnect_attempts` passed explicitly; `none` models Python `None`. -/
def should_reconnect (reconnect_attempts : Nat) (error_code : Option Int) : Bool :=
  if MAX_RECONNECT_ATTEMPTS ≤ reconnect_attempts then false
  else if error_code = some 1011 then true
  else
    match error_code with
    | some c => RETRYABLE_CODES.contains c
    | none => false

/-- `ReconnectManager.get_reconnect_delay(error_code)`, with
`self.reconnect_attempts` passed explicitly.  Modelled in `ℚ`: every float the
code can compute here is exact (powers of two capped at 30). -/
def get_reconnect_delay (reconnect_attempts : Nat) (error_code : Option Int) : ℚ :=
  if error_code = some 1011 then 0
  else
    min (INITIAL_RECONNECT_DELAY * RECONNECT_BACKOFF_FACTOR ^ reconnect_attempts)
      MAX_RECONNECT_DELAY

/-- **C4.** The reconnect delay is `min(1 · 2^attempt, 30)` seconds for every
non-1011 error code — in particular 1s at attempt 0, 8s at attempt 3, 30s at
attempt 10 — and 0 seconds for code 1011 at every attempt count. -/
theorem c4_reconnect_delay (a : Nat) (code : Option Int) :
    get_reconnect_delay a (some 1011) = 0 ∧
      (code ≠ some 1011 →
        get_reconnect_delay a code = min ((1 : ℚ) * 2 ^ a) 30) ∧
      get_reconnect_delay 0 none = 1 ∧
      get_reconnect_delay 3 none = 8 ∧
      get_reconnect_delay 10 none = 30 := by
  refine ⟨by simp [get_reconnect_delay], ?_, ?_, ?_, ?_⟩
  · intro hne
    simp only [get_reconnect_delay, hne, if_false]
    rfl
  · simp [get_reconnect_delay, INITIAL_RECONNECT_DELAY, RECONNECT_BACKOFF_FACTOR,
      MAX_RECONNECT_DELAY]
  · rw [get_reconnect_delay, if_neg (by simp : ¬(none : Option Int) = some 1011)]
    norm_num [INITIAL_RECONNECT_DELAY, RECONNECT_BACKOFF_FACTOR, MAX_RECONNECT_DELAY]
  · rw [get_reconnect_delay, if_neg (by simp : ¬(none : Option Int) = some 1011)]
    norm_num [INITIAL_RECONNECT_DELAY, RECONNECT_BACKOFF_FACTOR, MAX_RECONNECT_DELAY]

theorem c4_reconnect_delay_witness :
    (some (1012 : Int) ≠ some 1011) ∧
      get_reconnect_delay 3 (some 1012) = min ((1 : ℚ) * 2 ^ 3) 30 :=
  ⟨by decide, (c4_reconnect_delay 3 (some 1012)).2.1 (by decide)⟩

/-- **C5.** `should_reconnect` returns `true` exactly for error codes in
`{1006, 1011, 1012, 1013, 1014, 1015}` while fewer than 5 attempts have been
made, and `false` for every code (including retryable ones and 1011) once
5 attempts have been made. -/
theorem c5_should_reconnect (a : Nat) (code : Option Int) :
    should_reconnect a code = true ↔
      (a < 5 ∧ ∃ c, code = some c ∧ c ∈ RETRYABLE_CODES) := by
  unfold should_reconnect MAX_RECONNECT_ATTEMPTS
  by_cases ha : 5 ≤ a
  · rw [if_pos ha]
    simp [show ¬a < 5 from by omega]
  · rw [if_neg ha]
    have ha5 : a < 5 := by omega
    rcases code with _ | c
    · rw [if_neg (by simp : ¬(none : Option Int) = some 1011)]
      simp
    · by_cases h11 : c = 1011
      · subst h11
        rw [if_pos rfl]
        constructor
        · intro _
          exact ⟨ha5, 1011, rfl, by decide⟩
        · intro _
          rfl
      · rw [if_neg (by simpa using h11)]
        constructor
        · intro h
          have h' : RETRYABLE_CODES.contains c = true := h
          rw [List.contains_eq_any_beq] at h'
          rcases List.any_eq_true.mp h' with ⟨x, hx, hbe⟩
          exact ⟨ha5, c, rfl, by rw [show c = x from by simpa using hbe]; exact hx⟩
        · rintro ⟨-, c', hc', hmem⟩
          have hcc : c' = c := by simpa using hc'.symm
          subst hcc
          show RETRYABLE_CODES.contains c' = true
          rw [List.contains_eq_any_beq]
          exact List.any_eq_true.mpr ⟨c', hmem, by simp⟩

/-! ## `WebTranslateClient` state: mute bridge and upstream-reader exit
(web_translate_client.py lines 45–62, 94–120, 246–347) -/

/-- An upstream-bound websocket event, as far as these claims need it:
`input_audio_buffer.append` with the raw (pre-base64) byte payload. -/
inductive UpstreamEvent
  | audioAppend (payload : List Nat)
deriving DecidableEq

/-- The mutable state of a `WebTranslateClient` relevant to the mute bridge:
`self.is_connected`, `self.ws` (presence only), `self.is_processing_audio`,
`self.translation_start_time` (wall-clock seconds), and the trace of events
sent on the upstream socket. -/
structure WebClientState where
  is_connected : Bool
  has_ws : Bool
  is_processing_audio : Bool
  translation_start_time : Option ℚ
  sent : List UpstreamEvent
deriving DecidableEq

/-- `b'\x00' * (int(self.input_rate * duration_seconds) * 2)` with
`input_rate = 16000`. -/
def silence_bytes (duration_seconds : ℚ) : List Nat :=
  List.replicate ((16000 * duration_seconds).floor.toNat * 2) 0

/-- `WebTranslateClient._send_silence(duration_seconds)`: a no-op unless
connected with a live socket, else one `input_audio_buffer.append` of silence. -/
def _send_silence (s : WebClientState) (duration_seconds : ℚ) : WebClientState :=
  if s.is_connected && s.has_ws then
    { s with sent := s.sent ++ [UpstreamEvent.audioAppend (silence_bytes duration_seconds)] }
  else s

/-- `WebTranslateClient.pause_audio_processing()` at wall-clock time `now`:
only if currently processing, flip to suspended, record the start time, and
send 3 seconds of silence. -/
def pause_audio_processing (s : WebClientState) (now : ℚ) : WebClientState :=
  if s.is_processing_audio then
    _send_silence
      { s with is_processing_audio := false, translation_start_time := some now } 3
  else s

/-- `WebTranslateClient.resume_audio_processing()`. -/
def resume_audio_processing (s : WebClientState) : WebClientState :=
  { s with is_processing_audio := true }

/-- **C9.** For a connected client currently forwarding audio, two consecutive
`mute=true` signals send the 3-second silence block exactly once (the second
pause is a no-op), and `mute=false` with no prior `mute=true` (i.e. while
still forwarding) leaves the state unchanged. -/
theorem c9_mute_bridge_idempotent (s : WebClientState) (t1 t2 : ℚ)
    (hproc : s.is_processing_audio = true)
    (hconn : s.is_connected = true) (hws : s.has_ws = true) :
    (pause_audio_processing (pause_audio_processing s t1) t2).sent =
        s.sent ++ [UpstreamEvent.audioAppend (silence_bytes 3)] ∧
      pause_audio_processing (pause_audio_processing s t1) t2 =
        pause_audio_processing s t1 ∧
      (∀ s' : WebClientState, s'.is_processing_audio = true →
        resume_audio_processing s' = s') := by
  have h1 : pause_audio_processing s t1 =
      { s with
        is_processing_audio := false
        translation_start_time := some t1
        sent := s.sent ++ [UpstreamEvent.audioAppend (silence_bytes 3)] } := by
    rw [pause_audio_processing, if_pos hproc, _send_silence]
    rw [if_pos (by simp [hconn, hws])]
  have h2 : pause_audio_processing (pause_audio_processing s t1) t2 =
      pause_audio_processing s t1 := by
    rw [h1, pause_audio_processing, if_neg (by simp)]
  refine ⟨?_, h2, ?_⟩
  · rw [h2, h1]
  · intro s' hp
    obtain ⟨a, b, c, d, e⟩ := s'
    simp only [resume_audio_processing]
    simp_all

/-- Concrete state for the C9 witness: connected, socket live, forwarding. -/
def c9s0 : WebClientState := ⟨true, true, true, none, []⟩

theorem c9_mute_bridge_idempotent_witness :
    c9s0.is_processing_audio = true ∧ c9s0.is_connected = true ∧
      c9s0.has_ws = true ∧
      (pause_audio_processing (pause_audio_processing c9s0 0) 1).sent =
        c9s0.sent ++ [UpstreamEvent.audioAppend (silence_bytes 3)] :=
  ⟨rfl, rfl, rfl, (c9_mute_bridge_idempotent c9s0 0 1 rfl rfl rfl).1⟩

/-- A Python exception, as inspected by the supervisor's `except` handler:
`getattr(e, 'code', None)` and whether `'1011' in str(e.args[0])`. -/
structure PyExn where
  code : Option Int
  args_mention_1011 : Bool
deriving DecidableEq

/-- How `handle_server_messages` can stop consuming the upstream stream. -/
inductive UpstreamLoopEnd
  | streamEnded
  | connectionClosed
  | decodeFailure
deriving DecidableEq

/-- The `try/except` tail of `WebTranslateClient.handle_server_messages`
(lines 341–347): both `except websockets.exceptions.ConnectionClosed` and
`except Exception` (which covers `json.loads` decode failures) set
`self.is_connected = False` and return normally — the second component is the
exception, if any, that propagates out of the coroutine. -/
def handle_server_messages_exit (s : WebClientState) :
    UpstreamLoopEnd → WebClientState × Option PyExn
  | .streamEnded => (s, none)
  | .connectionClosed => ({ s with is_connected := false }, none)
  | .decodeFailure => ({ s with is_connected := false }, none)

/-- Concrete client state for the C3 counterexample and witness. -/
def c3s0 : WebClientState := ⟨true, true, true, none, []⟩

/-- **C3 counterexample.** At a decode failure the reader loop does mark the
client disconnected, but no exception propagates out of the reader coroutine,
so nothing reaches the supervisor's `except` handler: the claimed "surfaced to
the Supervisor as an Error transition" conjunct is false. -/
theorem c3_counterexample :
    ¬((handle_server_messages_exit c3s0 .decodeFailure).1.is_connected = false ∧
      ((handle_server_messages_exit c3s0 .decodeFailure).2).isSome = true) := by
  decide

/-- **C3 (amended).** When the upstream read loop ends on a decode failure or
a transport-closure exception, the client is marked disconnected, but the
failure is swallowed inside `handle_server_messages` (no exception escapes the
reader task), so it is not delivered to the Connection Supervisor and triggers
no reconnect. -/
theorem c3_upstream_failure_swallowed (s : WebClientState) (e : UpstreamLoopEnd)
    (h : e ≠ .streamEnded) :
    (handle_server_messages_exit s e).1.is_connected = false ∧
      (handle_server_messages_exit s e).2 = none := by
  cases e with
  | streamEnded => exact absurd rfl h
  | connectionClosed => exact ⟨rfl, rfl⟩
  | decodeFailure => exact ⟨rfl, rfl⟩

theorem c3_upstream_failure_swallowed_witness :
    (UpstreamLoopEnd.decodeFailure ≠ UpstreamLoopEnd.streamEnded) ∧
      (handle_server_messages_exit c3s0 .decodeFailure).1.is_connected = false ∧
      (handle_server_messages_exit c3s0 .decodeFailure).2 = none :=
  ⟨by decide, c3_upstream_failure_swallowed c3s0 .decodeFailure (by decide)⟩

/-! ## The supervisor receive loop and the 60 s timeout (web_server.py
lines 215–337) -/

/-- The supervisor-loop state of `websocket_endpoint` that the exception
handler touches: `websocket_active`, `reconnect_manager.reconnect_attempts`,
and whether a `client` currently exists. -/
structure SupervisorState where
  websocket_active : Bool
  reconnect_attempts : Nat
  has_client : Bool
deriving DecidableEq

/-- Error-code extraction at the top of the `except Exception` handler
(lines 310–314): `getattr(e, 'code', None)`, overridden to 1011 when
`'1011' in str(e.args[0])`. -/
def extract_error_code (e : PyExn) : Option Int :=
  if e.args_mention_1011 then some 1011 else e.code

/-- The `except Exception` handler of the outer supervisor loop
(lines 307–337): on a retry classification, bump the attempt counter and tear
the client down for reconnection; otherwise deactivate the session and break. -/
def handle_loop_exception (st : SupervisorState) (e : PyExn) : SupervisorState :=
  if should_reconnect st.reconnect_attempts (extract_error_code e) then
    { st with reconnect_attempts := st.reconnect_attempts + 1, has_client := false }
  else
    { st with websocket_active := false }

/-- `asyncio.TimeoutError` as raised by `asyncio.wait_for`: it has no `code`
attribute and its `args` do not mention 1011. -/
def timeoutExn : PyExn := ⟨none, false⟩

/-- What one expiry of the 60-second receive timeout does to the supervisor:
`asyncio.wait_for` raises `TimeoutError` (an `Exception`), the inner `while`
has no handler for it, and the loop's `else:` clause — the branch the source
comments as `# TimeoutError` and that would `continue` — runs only on a
*normal* loop exit and is skipped when an exception propagates, so control
reaches the outer `except Exception` handler. -/
def receive_timeout_step (st : SupervisorState) : SupervisorState :=
  handle_loop_exception st timeoutExn

/-- **C1 (code behaviour at the failing input).** On a fresh session
(`websocket_active`, zero reconnect attempts), expiry of the 60 s receive
timeout lands in the generic exception handler, where the reconnect
classification of the codeless `TimeoutError` is give-up, so the session is
terminated — contradicting the claim that a timeout merely re-waits. -/
theorem c1_timeout_terminates_session :
    (receive_timeout_step ⟨true, 0, true⟩).websocket_active = false ∧
      should_reconnect 0 (extract_error_code timeoutExn) = false := by
  decide

/-! ## `session.update` handling and reconnection arguments (web_server.py
lines 163–170, 218–243, 277–297) -/

/-- A parsed `{type: 'session.update', ...}` payload; `none` models a field
absent from the frame (`payload.get(...)` returning `None`). -/
structure SessionUpdatePayload where
  target_language : Option String
  voice : Option String
  audio_enabled : Option Bool
deriving DecidableEq

/-- The local variables of `websocket_endpoint` that a later reconnection
reads when re-creating the upstream client.  `voice` and `audio_enabled`
start as the connection parameters (strings/bools), but the `session.update`
branch rebinds them to `payload.get(...)` results, so they are modelled as
optional. -/
structure SupervisorLocals where
  target_language : String
  voice : Option String
  audio_enabled : Option Bool
  line_breaks_enabled : Bool
deriving DecidableEq

/-- A client text frame after JSON dispatch in the receive loop. -/
inductive ClientTextFrame
  | pong
  | sessionUpdate (p : SessionUpdatePayload)
  | formatUpdate (line_breaks_enabled : Bool)
  | other
deriving DecidableEq

/-- The text-frame branch of the receive loop (lines 270–297), restricted to
its effect on the endpoint's local variables: for `session.update` the frame's
`target_language` goes into the fresh local `lang` (so the endpoint variable
is untouched) while `voice = payload.get('voice')` and
`audio_enabled = payload.get('audio_enabled')` rebind the endpoint variables. -/
def handle_text_frame (l : SupervisorLocals) : ClientTextFrame → SupervisorLocals
  | .sessionUpdate p => { l with voice := p.voice, audio_enabled := p.audio_enabled }
  | .formatUpdate b => { l with line_breaks_enabled := b }
  | .pong => l
  | .other => l

/-- The `(target_language, voice, audio_enabled)` triple passed to
`create_and_connect_client` when the loop re-creates the client
(lines 237–239). -/
def reconnect_client_args (l : SupervisorLocals) :
    String × Option String × Option Bool :=
  (l.target_language, l.voice, l.audio_enabled)

/-- **C10.** After a `session.update` frame is handled, the endpoint's
`target_language` is unchanged (the frame's value lives only in the local
`lang`), while `voice` and `audio_enabled` become exactly the frame's values —
`none` when omitted — so a client created on a later reconnection is
constructed with `voice=None` and `audio_enabled=None` when the frame omitted
those fields. -/
theorem c10_session_update_rebinds (l : SupervisorLocals) (p : SessionUpdatePayload)
    (hv : p.voice = none) (ha : p.audio_enabled = none) :
    (handle_text_frame l (.sessionUpdate p)).target_language = l.target_language ∧
      (handle_text_frame l (.sessionUpdate p)).voice = p.voice ∧
      (handle_text_frame l (.sessionUpdate p)).audio_enabled = p.audio_enabled ∧
      reconnect_client_args (handle_text_frame l (.sessionUpdate p)) =
        (l.target_language, none, none) := by
  refine ⟨rfl, rfl, rfl, ?_⟩
  simp [reconnect_client_args, handle_text_frame, hv, ha]

/-- Concrete locals/payload for the C10 witness: a session started with
voice "Cherry" and audio on, receiving `{"type":"session.update",
"target_language":"ja"}`. -/
def c10l : SupervisorLocals := ⟨"en", some "Cherry", some true, false⟩

def c10p : SessionUpdatePayload := ⟨some "ja", none, none⟩

theorem c10_session_update_rebinds_witness :
    c10p.voice = none ∧ c10p.audio_enabled = none ∧
      reconnect_client_args (handle_text_frame c10l (.sessionUpdate c10p)) =
        ("en", none, none) :=
  ⟨rfl, rfl, (c10_session_update_rebinds c10l c10p rfl rfl).2.2.2⟩

/-! ## `OSCManager._insert_newlines_after_sentence_enders` and
`OSCManager._format_text_for_chatbox` (osc_manager.py lines 168–283) -/

/-- The character class of the first newline-insertion regex
`([。！？!?…])`. -/
def enderClass1 : List Char := ['。', '！', '？', '!', '?', '…']

/-- The scan of `re.sub(r"([。！？!?…])(?!\n)\s*", r"\1\n", text)`: after each
such character not already followed by a newline, consume following whitespace
and emit a single newline.  Fuel-driven; `s.length` steps always suffice. -/
def subEndersGo : Nat → List Char → List Char
  | 0, s => s
  | _ + 1, [] => []
  | fuel + 1, c :: cs =>
    if enderClass1.contains c then
      if cs.headD ' ' == '\n' then c :: subEndersGo fuel cs
      else c :: '\n' :: subEndersGo fuel (cs.dropWhile isSpacePy)
    else c :: subEndersGo fuel cs

def subEnders (s : List Char) : List Char := subEndersGo s.length s

/-- The closing quote/bracket class of the `'.'` heuristic regex. -/
def closers : List Char := ['"', '\'', ')', ']', '}', '》', '」', '』', '”', '’']

/-- The lookahead `(?=(\s|$|[closers]))(?!\n)` of the `'.'` heuristic. -/
def dotMatchAhead (cs : List Char) : Bool :=
  match cs with
  | [] => true
  | d :: _ => (isSpacePy d || closers.contains d) && d != '\n'

/-- The scan of `re.sub(r"(?<!\.)\.(?=(\s|$|[...]))(?!\n)\s*", ".\n", text)`.
The `Option Char` argument is the character preceding the current position in
the original text (for the `(?<!\.)` lookbehind); after a match the scan
resumes after the consumed whitespace, whose last character becomes the new
lookbehind context. -/
def subDotsGo : Nat → Option Char → List Char → List Char
  | 0, _, s => s
  | _ + 1, _, [] => []
  | fuel + 1, prev, c :: cs =>
    if c == '.' && !(prev == some '.') && dotMatchAhead cs then
      '.' :: '\n' ::
        subDotsGo fuel (some ((cs.takeWhile isSpacePy).getLastD '.'))
          (cs.dropWhile isSpacePy)
    else c :: subDotsGo fuel (some c) cs

def subDots (s : List Char) : List Char := subDotsGo s.length none s

/-- `OSCManager._insert_newlines_after_sentence_enders(text)`. -/
def _insert_newlines_after_sentence_enders (text : List Char) : List Char :=
  if text = [] then text
  else subDots (subEnders (normalizeNewlines text))

/-- The scan of `re.sub(r"\s+", " ", content)`: collapse each whitespace run
to a single space. -/
def wsCollapseGo : Nat → List Char → List Char
  | 0, s => s
  | _ + 1, [] => []
  | fuel + 1, c :: cs =>
    if isSpacePy c then ' ' :: wsCollapseGo fuel (cs.dropWhile isSpacePy)
    else c :: wsCollapseGo fuel cs

/-- `re.sub(r"\s+", " ", content).strip()` as used for bracketed segments and
the unconfirmed part. -/
def collapseWs (s : List Char) : List Char := strip (wsCollapseGo s.length s)

def digitChar (d : Nat) : Char := Char.ofNat (48 + d)

/-- Decimal digits of `n`, as in Python string formatting. -/
def natDigits (n : Nat) : List Char :=
  if n < 10 then [digitChar n]
  else natDigits (n / 10) ++ [digitChar (n % 10)]
decreasing_by exact Nat.div_lt_self (by omega) (by omega)

/-- The placeholder `__BRACKETED_{i}__` of `_format_text_for_chatbox`. -/
def placeholderChars (i : Nat) : List Char :=
  ('_' :: '_' :: "BRACKETED".data) ++ ('_' :: natDigits i) ++ ['_', '_']

/-- The scan of `re.sub(r"\[[^\]]*\]", _bracket_replacer, text)` together with
the `bracketed_segments` side list: each bracketed span (through the first
following `]`) is whitespace-collapsed, recorded, and replaced by its
placeholder.  `k` is the next placeholder index; fuel-driven. -/
def protectGo : Nat → Nat → List Char → List Char × List (List Char)
  | 0, _, s => (s, [])
  | _ + 1, _, [] => ([], [])
  | fuel + 1, k, c :: cs =>
    if c == '[' then
      match findSub cs [']'] with
      | some j =>
        (placeholderChars k ++ (protectGo fuel (k + 1) (cs.drop (j + 1))).1,
          collapseWs ('[' :: cs.take j ++ [']']) ::
            (protectGo fuel (k + 1) (cs.drop (j + 1))).2)
      | none => (c :: cs, [])
    else
      ((c :: (protectGo fuel k cs).1), (protectGo fuel k cs).2)

/-- Bracket protection of `_format_text_for_chatbox`: the protected text and
the recorded collapsed bracket contents, in placeholder order. -/
def protectText (s : List Char) : List Char × List (List Char) :=
  protectGo s.length 0 s

/-- The restoration loop `for idx, content in enumerate(bracketed_segments):
formatted = formatted.replace(f"__BRACKETED_{idx}__", content)`, starting at
index `i`. -/
def restoreFrom : Nat → List Char → List (List Char) → List Char
  | _, s, [] => s
  | i, s, content :: rest =>
    restoreFrom (i + 1) (replaceList (placeholderChars i) content s) rest

def restoreBrackets (s : List Char) (segs : List (List Char)) : List Char :=
  restoreFrom 0 s segs

/-- `OSCManager._format_text_for_chatbox(text)`. -/
def _format_text_for_chatbox (text : List Char) : List Char :=
  if text = [] then text
  else
    match _split_confirmed_unconfirmed (protectText (normalizeNewlines text)).1 with
    | none =>
      restoreBrackets
        (_insert_newlines_after_sentence_enders
          (protectText (normalizeNewlines text)).1)
        (protectText (normalizeNewlines text)).2
    | some (confirmed, delim, unconfirmed) =>
      if rstrip (_insert_newlines_after_sentence_enders confirmed) = [] then
        collapseWs unconfirmed
      else if collapseWs unconfirmed = [] then
        restoreBrackets (rstrip (_insert_newlines_after_sentence_enders confirmed))
          (protectText (normalizeNewlines text)).2
      else
        restoreBrackets
          (rstrip (_insert_newlines_after_sentence_enders confirmed) ++ delim ++
            '\n' :: collapseWs unconfirmed)
          (protectText (normalizeNewlines text)).2

theorem lstrip_head {z : List Char} {a : Char} {r : List Char}
    (h : lstrip z = a :: r) : isSpacePy a = false := by
  induction z with
  | nil => simp [lstrip] at h
  | cons c cs ih =>
    rw [lstrip, List.dropWhile_cons] at h
    by_cases hc : isSpacePy c
    · rw [if_pos (by simp [hc])] at h
      exact ih h
    · rw [if_neg (by simpa using hc)] at h
      cases h
      simpa using hc

theorem rstrip_decomp (z : List Char) :
    ∃ S, z = rstrip z ++ S ∧ ∀ ch ∈ S, isSpacePy ch = true := by
  refine ⟨(z.reverse.takeWhile isSpacePy).reverse, ?_, ?_⟩
  · conv_lhs => rw [← z.reverse_reverse, ← List.takeWhile_append_dropWhile isSpacePy z.reverse]
    rw [List.reverse_append]
    rfl
  · intro ch hch
    exact List.mem_takeWhile_imp (List.mem_reverse.mp hch)

theorem strip_eq_nil_imp {z : List Char} (h : strip z = []) :
    ∀ ch ∈ z, isSpacePy ch = true := by
  intro ch hch
  have hall : ∀ x ∈ rstrip z, isSpacePy x = true := by
    unfold strip lstrip at h
    exact List.dropWhile_eq_nil_iff.mp h
  obtain ⟨S, hz, hS⟩ := rstrip_decomp z
  rw [hz] at hch
  rcases List.mem_append.mp hch with h1 | h2
  · exact hall ch h1
  · exact hS ch h2

theorem strip_eq_nil_of_all_space {z : List Char}
    (h : ∀ ch ∈ z, isSpacePy ch = true) : strip z = [] := by
  have hr : rstrip z = [] := by
    unfold rstrip
    rw [List.dropWhile_eq_nil_iff.mpr fun x hx => h x (List.mem_reverse.mp hx)]
    rfl
  unfold strip
  rw [hr]
  rfl

theorem ex_nonspace_of_strip_ne_nil {z : List Char} (h : strip z ≠ []) :
    ∃ ch ∈ z, isSpacePy ch = false := by
  by_contra hc
  push_neg at hc
  exact h (strip_eq_nil_of_all_space fun ch hch => by
    have := hc ch hch
    simpa using this)

theorem strip_ne_nil_of_nonspace_mem {z : List Char} {ch : Char}
    (hm : ch ∈ z) (hs : isSpacePy ch = false) : strip z ≠ [] := by
  intro h
  rw [strip_eq_nil_imp h ch hm] at hs
  exact Bool.noConfusion hs

theorem mem_rstrip_of_nonspace {z : List Char} {ch : Char}
    (hm : ch ∈ z) (hs : isSpacePy ch = false) : ch ∈ rstrip z := by
  obtain ⟨S, hz, hS⟩ := rstrip_decomp z
  rw [hz] at hm
  rcases List.mem_append.mp hm with h1 | h2
  · exact h1
  · rw [hS ch h2] at hs
    exact Bool.noConfusion hs

theorem mem_dropWhile_of_nonspace {ch : Char} (hs : isSpacePy ch = false) :
    ∀ {l : List Char}, ch ∈ l → ch ∈ l.dropWhile isSpacePy := by
  intro l
  induction l with
  | nil => intro h; simp at h
  | cons c cs ih =>
    intro hm
    rw [List.dropWhile_cons]
    by_cases hc : isSpacePy c
    · rw [if_pos (by simp [hc])]
      rcases List.mem_cons.mp hm with rfl | hmem
      · rw [hc] at hs; exact Bool.noConfusion hs
      · exact ih hmem
    · rw [if_neg (by simpa using hc)]
      exact hm

theorem strip_sublist (z : List Char) : (strip z).Sublist z := by
  have h1 : (lstrip (rstrip z)).Sublist (rstrip z) := List.dropWhile_sublist _
  have h2 : (rstrip z).Sublist z := by
    have := (@List.dropWhile_sublist Char z.reverse isSpacePy).reverse
    rwa [List.reverse_reverse] at this
  exact h1.trans h2

theorem startsWith_decomp :
    ∀ (pat s : List Char), listStartsWith pat s = true →
      s = pat ++ s.drop pat.length := by
  intro pat
  induction pat with
  | nil => intro s _; simp
  | cons p ps ih =>
    intro s h
    cases s with
    | nil => simp [listStartsWith] at h
    | cons c cs =>
      simp only [listStartsWith, Bool.and_eq_true, beq_iff_eq] at h
      have := ih cs h.2
      simp only [List.length_cons, List.drop_succ_cons]
      rw [h.1]
      exact congrArg (c :: ·) this

theorem startsWith_length_le :
    ∀ (pat s : List Char), listStartsWith pat s = true → pat.length ≤ s.length := by
  intro pat
  induction pat with
  | nil => intro s _; simp
  | cons p ps ih =>
    intro s h
    cases s with
    | nil => simp [listStartsWith] at h
    | cons c cs =>
      simp only [listStartsWith, Bool.and_eq_true] at h
      simpa using ih cs h.2

theorem replaceGo_mem_nonspace {pat rep : List Char} {ch : Char}
    (hpat : ∀ p ∈ pat, isSpacePy p = true) (hch : isSpacePy ch = false) :
    ∀ (fuel : Nat) (s : List Char), ch ∈ s → ch ∈ replaceGo pat rep fuel s := by
  intro fuel
  induction fuel with
  | zero => intro s hm; exact hm
  | succ fuel ih =>
    intro s hm
    cases s with
    | nil => simp at hm
    | cons c cs =>
      rw [replaceGo]
      by_cases hcond : (!pat.isEmpty && listStartsWith pat (c :: cs)) = true
      · rw [if_pos hcond]
        have hsw : listStartsWith pat (c :: cs) = true := by
          simpa using (Bool.and_eq_true _ _ ▸ hcond).2
        have hdec := startsWith_decomp pat (c :: cs) hsw
        have hne : pat ≠ [] := by
          intro hx
          simp [hx] at hcond
        have hdrop : (c :: cs).drop pat.length = cs.drop (pat.length - 1) := by
          match pat, hne with
          | p :: ps, _ => simp
        rw [hdec, hdrop] at hm
        rcases List.mem_append.mp hm with h1 | h2
        · rw [hpat ch h1] at hch; exact Bool.noConfusion hch
        · exact List.mem_append.mpr (Or.inr (ih _ h2))
      · rw [if_neg hcond]
        rcases List.mem_cons.mp hm with rfl | hmem
        · exact List.mem_cons_self _ _
        · exact List.mem_cons_of_mem _ (ih _ hmem)

theorem mem_normalize_of_nonspace {ch : Char} {s : List Char}
    (hch : isSpacePy ch = false) (hm : ch ∈ s) : ch ∈ normalizeNewlines s := by
  unfold normalizeNewlines replaceList
  apply replaceGo_mem_nonspace (by decide) hch
  exact replaceGo_mem_nonspace (by decide) hch _ _ hm

theorem subEndersGo_mem_nonspace {ch : Char} (hch : isSpacePy ch = false) :
    ∀ (fuel : Nat) (s : List Char), ch ∈ s → ch ∈ subEndersGo fuel s := by
  intro fuel
  induction fuel with
  | zero => intro s hm; exact hm
  | succ fuel ih =>
    intro s hm
    cases s with
    | nil => simp at hm
    | cons c cs =>
      rw [subEndersGo]
      by_cases h1 : enderClass1.contains c = true
      · rw [if_pos h1]
        by_cases h2 : (cs.headD ' ' == '\n') = true
        · rw [if_pos h2]
          rcases List.mem_cons.mp hm with rfl | hmem
          · exact List.mem_cons_self _ _
          · exact List.mem_cons_of_mem _ (ih _ hmem)
        · rw [if_neg h2]
          rcases List.mem_cons.mp hm with rfl | hmem
          · exact List.mem_cons_self _ _
          · exact List.mem_cons_of_mem _ (List.mem_cons_of_mem _
              (ih _ (mem_dropWhile_of_nonspace hch hmem)))
      · rw [if_neg h1]
        rcases List.mem_cons.mp hm with rfl | hmem
        · exact List.mem_cons_self _ _
        · exact List.mem_cons_of_mem _ (ih _ hmem)

theorem subDotsGo_mem_nonspace {ch : Char} (hch : isSpacePy ch = false) :
    ∀ (fuel : Nat) (prev : Option Char) (s : List Char),
      ch ∈ s → ch ∈ subDotsGo fuel prev s := by
  intro fuel
  induction fuel with
  | zero => intro prev s hm; exact hm
  | succ fuel ih =>
    intro prev s hm
    cases s with
    | nil => simp at hm
    | cons c cs =>
      rw [subDotsGo]
      by_cases hcond : (c == '.' && !(prev == some '.') && dotMatchAhead cs) = true
      · rw [if_pos hcond]
        have hc : c = '.' := by
          have := (Bool.and_eq_true _ _ ▸ hcond).1
          have := (Bool.and_eq_true _ _ ▸ this).1
          simpa using this
        rcases List.mem_cons.mp hm with rfl | hmem
        · rw [hc]; exact List.mem_cons_self _ _
        · exact List.mem_cons_of_mem _ (List.mem_cons_of_mem _
            (ih _ _ (mem_dropWhile_of_nonspace hch hmem)))
      · rw [if_neg hcond]
        rcases List.mem_cons.mp hm with rfl | hmem
        · exact List.mem_cons_self _ _
        · exact List.mem_cons_of_mem _ (ih _ _ hmem)

theorem mem_insert_newlines_of_nonspace {ch : Char} {s : List Char}
    (hch : isSpacePy ch = false) (hm : ch ∈ s) :
    ch ∈ _insert_newlines_after_sentence_enders s := by
  unfold _insert_newlines_after_sentence_enders
  rw [if_neg (List.ne_nil_of_mem hm)]
  unfold subDots subEnders
  exact subDotsGo_mem_nonspace hch _ _ _
    (subEndersGo_mem_nonspace hch _ _ (mem_normalize_of_nonspace hch hm))

theorem wsCollapseGo_mem_nonspace {ch : Char} (hch : isSpacePy ch = false) :
    ∀ (fuel : Nat) (s : List Char), ch ∈ s → ch ∈ wsCollapseGo fuel s := by
  intro fuel
  induction fuel with
  | zero => intro s hm; exact hm
  | succ fuel ih =>
    intro s hm
    cases s with
    | nil => simp at hm
    | cons c cs =>
      rw [wsCollapseGo]
      by_cases hc : isSpacePy c = true
      · rw [if_pos hc]
        rcases List.mem_cons.mp hm with rfl | hmem
        · rw [hc] at hch; exact Bool.noConfusion hch
        · exact List.mem_cons_of_mem _ (ih _ (mem_dropWhile_of_nonspace hch hmem))
      · rw [if_neg hc]
        rcases List.mem_cons.mp hm with rfl | hmem
        · exact List.mem_cons_self _ _
        · exact List.mem_cons_of_mem _ (ih _ hmem)

theorem wsCollapseGo_no_newline :
    ∀ (fuel : Nat) (s : List Char), s.length ≤ fuel → '\n' ∉ wsCollapseGo fuel s := by
  intro fuel
  induction fuel with
  | zero =>
    intro s hs
    simp only [Nat.le_zero, List.length_eq_zero] at hs
    subst hs
    simp [wsCollapseGo]
  | succ fuel ih =>
    intro s hs
    cases s with
    | nil => simp [wsCollapseGo]
    | cons c cs =>
      rw [wsCollapseGo]
      simp only [List.length_cons] at hs
      by_cases hc : isSpacePy c = true
      · rw [if_pos hc]
        intro hmem
        rcases List.mem_cons.mp hmem with heq | hmem'
        · exact absurd heq.symm (by decide)
        · exact ih _ (le_trans ((List.dropWhile_sublist _).length_le) (by omega)) hmem'
      · rw [if_neg hc]
        intro hmem
        rcases List.mem_cons.mp hmem with heq | hmem'
        · rw [← heq] at hc; exact hc rfl
        · exact ih _ (by omega) hmem'

theorem collapseWs_no_newline (s : List Char) : '\n' ∉ collapseWs s := by
  intro hmem
  exact wsCollapseGo_no_newline s.length s le_rfl ((strip_sublist _).subset hmem)

theorem collapseWs_ne_nil_of_nonspace {s : List Char} {ch : Char}
    (hm : ch ∈ s) (hch : isSpacePy ch = false) : collapseWs s ≠ [] :=
  strip_ne_nil_of_nonspace_mem (wsCollapseGo_mem_nonspace hch _ _ hm) hch

theorem digitChar_ne_newline {d : Nat} (hd : d < 10) : digitChar d ≠ '\n' := by
  interval_cases d <;> decide

theorem natDigits_no_newline : ∀ n : Nat, '\n' ∉ natDigits n := by
  intro n
  induction n using Nat.strong_induction_on with
  | _ n ih =>
    rw [natDigits]
    by_cases hn : n < 10
    · rw [if_pos hn]
      simp only [List.mem_singleton]
      exact fun h => digitChar_ne_newline hn h.symm
    · rw [if_neg hn]
      intro hmem
      rcases List.mem_append.mp hmem with h1 | h2
      · exact ih (n / 10) (Nat.div_lt_self (by omega) (by omega)) h1
      · rw [List.mem_singleton] at h2
        exact digitChar_ne_newline (Nat.mod_lt _ (by omega)) h2.symm

theorem placeholder_ne_nil (i : Nat) : placeholderChars i ≠ [] := by
  simp [placeholderChars]

theorem placeholder_no_newline (i : Nat) : '\n' ∉ placeholderChars i := by
  intro hmem
  unfold placeholderChars at hmem
  rcases List.mem_append.mp hmem with h1 | h2
  · rcases List.mem_append.mp h1 with h3 | h4
    · exact absurd h3 (by decide)
    · rcases List.mem_cons.mp h4 with heq | h5
      · exact absurd heq (by decide)
      · exact natDigits_no_newline i h5
  · exact absurd h2 (by decide)

theorem replaceGo_fuel {pat rep : List Char} :
    ∀ (fuel₁ fuel₂ : Nat) (s : List Char), s.length ≤ fuel₁ → s.length ≤ fuel₂ →
      replaceGo pat rep fuel₁ s = replaceGo pat rep fuel₂ s := by
  intro fuel₁
  induction fuel₁ with
  | zero =>
    intro fuel₂ s h1 _
    simp only [Nat.le_zero, List.length_eq_zero] at h1
    subst h1
    cases fuel₂ <;> rfl
  | succ fuel₁ ih =>
    intro fuel₂ s h1 h2
    cases s with
    | nil => cases fuel₂ <;> rfl
    | cons c cs =>
      cases fuel₂ with
      | zero => simp at h2
      | succ fuel₂ =>
        rw [replaceGo, replaceGo]
        simp only [List.length_cons] at h1 h2
        by_cases hcond : (!pat.isEmpty && listStartsWith pat (c :: cs)) = true
        · rw [if_pos hcond, if_pos hcond]
          have hd : (cs.drop (pat.length - 1)).length ≤ cs.length := by
            simp only [List.length_drop]; omega
          rw [ih fuel₂ _ (by omega) (by omega)]
        · rw [if_neg hcond, if_neg hcond]
          rw [ih fuel₂ cs (by omega) (by omega)]

theorem startsWith_append_newline {pat : List Char} (hpat : '\n' ∉ pat) :
    ∀ (A B : List Char), listStartsWith pat (A ++ '\n' :: B) = listStartsWith pat A := by
  induction pat with
  | nil => intro A B; cases A <;> rfl
  | cons p ps ih =>
    intro A B
    have hp : p ≠ '\n' := fun h => hpat (h ▸ List.mem_cons_self _ _)
    have hps : '\n' ∉ ps := fun h => hpat (List.mem_cons_of_mem _ h)
    cases A with
    | nil =>
      simp only [List.nil_append]
      show (p == '\n' && listStartsWith ps B) = listStartsWith (p :: ps) []
      rw [show (p == '\n') = false from by simpa using hp]
      rfl
    | cons a A' =>
      simp only [List.cons_append]
      show (p == a && listStartsWith ps (A' ++ '\n' :: B)) =
        (p == a && listStartsWith ps A')
      rw [ih hps A' B]

theorem replaceGo_split {pat rep : List Char} (hne : pat ≠ []) (hpat : '\n' ∉ pat) :
    ∀ (fuel : Nat) (A B : List Char), A.length + 1 + B.length ≤ fuel →
      replaceGo pat rep fuel (A ++ '\n' :: B) =
        replaceList pat rep A ++ '\n' :: replaceList pat rep B := by
  intro fuel
  induction fuel with
  | zero => intro A B h; omega
  | succ fuel ih =>
    intro A B h
    cases A with
    | nil =>
      simp only [List.nil_append, List.length_nil] at h ⊢
      rw [replaceGo]
      have hsw : listStartsWith pat ('\n' :: B) = false := by
        match pat, hne with
        | p :: ps, _ =>
          have hp : p ≠ '\n' := fun hx => hpat (hx ▸ List.mem_cons_self _ _)
          show (p == '\n' && listStartsWith ps B) = false
          rw [show (p == '\n') = false from by simpa using hp]
          rfl
      rw [if_neg (by simp [hsw])]
      rw [replaceGo_fuel fuel B.length B (by omega) le_rfl]
      rfl
    | cons a A' =>
      simp only [List.length_cons] at h
      have hstep : (a :: A') ++ '\n' :: B = a :: (A' ++ '\n' :: B) := rfl
      rw [hstep, replaceGo]
      have hswa : listStartsWith pat (a :: (A' ++ '\n' :: B)) =
          listStartsWith pat (a :: A') := by
        have := startsWith_append_newline hpat (a :: A') B
        simpa using this
      by_cases hsw : listStartsWith pat (a :: A') = true
      · have hcond : (!pat.isEmpty && listStartsWith pat (a :: (A' ++ '\n' :: B))) = true := by
          rw [hswa, hsw]
          simp [hne]
        rw [if_pos hcond]
        have hlenpat : pat.length ≤ A'.length + 1 := startsWith_length_le pat (a :: A') hsw
        have hlen1 : pat.length - 1 ≤ A'.length := by omega
        rw [List.drop_append_of_le_length hlen1]
        rw [ih (A'.drop (pat.length - 1)) B
          (by simp only [List.length_drop]; omega)]
        have hrhs : replaceList pat rep (a :: A') =
            rep ++ replaceList pat rep (A'.drop (pat.length - 1)) := by
          unfold replaceList
          rw [show (a :: A').length = A'.length + 1 from rfl, replaceGo]
          rw [if_pos (by rw [hsw]; simp [hne])]
          rw [replaceGo_fuel A'.length (A'.drop (pat.length - 1)).length _
            (by simp only [List.length_drop]; omega) le_rfl]
        rw [hrhs, List.append_assoc]
      · have hcond : (!pat.isEmpty && listStartsWith pat (a :: (A' ++ '\n' :: B))) = false := by
          rw [hswa]
          simp [hsw]
        rw [if_neg (by simp [hcond])]
        rw [ih A' B (by omega)]
        have hrhs : replaceList pat rep (a :: A') = a :: replaceList pat rep A' := by
          unfold replaceList
          rw [show (a :: A').length = A'.length + 1 from rfl, replaceGo]
          rw [if_neg (by simp only [hswa] at hcond ⊢; simp [hcond])]
        rw [hrhs]
        rfl

theorem replaceList_split {pat rep : List Char} (hne : pat ≠ []) (hpat : '\n' ∉ pat)
    (A B : List Char) :
    replaceList pat rep (A ++ '\n' :: B) =
      replaceList pat rep A ++ '\n' :: replaceList pat rep B := by
  unfold replaceList
  rw [show (A ++ '\n' :: B).length = A.length + 1 + B.length from by
    simp [List.length_append]; omega]
  exact replaceGo_split hne hpat _ A B le_rfl

theorem replaceGo_no_newline {pat rep : List Char} (hrep : '\n' ∉ rep) :
    ∀ (fuel : Nat) (s : List Char), '\n' ∉ s → '\n' ∉ replaceGo pat rep fuel s := by
  intro fuel
  induction fuel with
  | zero => intro s hs; exact hs
  | succ fuel ih =>
    intro s hs
    cases s with
    | nil => simp [replaceGo]
    | cons c cs =>
      rw [replaceGo]
      have hcs : '\n' ∉ cs := fun h => hs (List.mem_cons_of_mem _ h)
      by_cases hcond : (!pat.isEmpty && listStartsWith pat (c :: cs)) = true
      · rw [if_pos hcond]
        intro hmem
        rcases List.mem_append.mp hmem with h1 | h2
        · exact hrep h1
        · exact ih _ (fun hx => hcs (List.mem_of_mem_drop hx)) h2
      · rw [if_neg hcond]
        intro hmem
        rcases List.mem_cons.mp hmem with heq | h2
        · exact hs (heq ▸ List.mem_cons_self _ _)
        · exact ih _ hcs h2

theorem restoreFrom_no_newline :
    ∀ (segs : List (List Char)) (i : Nat) (s : List Char), '\n' ∉ s →
      (∀ seg ∈ segs, '\n' ∉ seg) → '\n' ∉ restoreFrom i s segs := by
  intro segs
  induction segs with
  | nil => intro i s hs _; exact hs
  | cons content rest ih =>
    intro i s hs hsegs
    rw [restoreFrom]
    exact ih (i + 1) _
      (replaceGo_no_newline (hsegs content (List.mem_cons_self _ _)) _ _ hs)
      (fun seg hseg => hsegs seg (List.mem_cons_of_mem _ hseg))

theorem restoreFrom_split :
    ∀ (segs : List (List Char)) (i : Nat) (A B : List Char),
      restoreFrom i (A ++ '\n' :: B) segs =
        restoreFrom i A segs ++ '\n' :: restoreFrom i B segs := by
  intro segs
  induction segs with
  | nil => intro i A B; rfl
  | cons content rest ih =>
    intro i A B
    rw [restoreFrom, restoreFrom, restoreFrom]
    rw [replaceList_split (placeholder_ne_nil i) (placeholder_no_newline i) A B]
    exact ih (i + 1) _ _

theorem protectGo_segs :
    ∀ (fuel k : Nat) (s : List Char),
      ∀ seg ∈ (protectGo fuel k s).2, ∃ raw, seg = collapseWs raw := by
  intro fuel
  induction fuel with
  | zero => intro k s seg hseg; simp [protectGo] at hseg
  | succ fuel ih =>
    intro k s seg hseg
    cases s with
    | nil => simp [protectGo] at hseg
    | cons c cs =>
      rw [protectGo] at hseg
      by_cases hc : (c == '[') = true
      · rw [if_pos hc] at hseg
        cases hf : findSub cs [']'] with
        | some j =>
          rw [hf] at hseg
          simp only at hseg
          rcases List.mem_cons.mp hseg with heq | hmem
          · exact ⟨_, heq⟩
          · exact ih (k + 1) _ seg hmem
        | none =>
          rw [hf] at hseg
          simp at hseg
      · rw [if_neg hc] at hseg
        exact ih k cs seg hseg

/-- **C8.** Whenever the confirmed/unconfirmed split succeeds on the
(bracket-protected, newline-normalized) text, the chatbox rendering places the
unconfirmed segment — whitespace-collapsed and with its bracket placeholders
restored — as the text after the final newline of the output, and that
segment contains no newline: it is a single unbroken line. -/
theorem c8_unconfirmed_single_line (text c d u : List Char)
    (h : _split_confirmed_unconfirmed (protectText (normalizeNewlines text)).1 =
      some (c, d, u)) :
    '\n' ∉ restoreBrackets (collapseWs u) (protectText (normalizeNewlines text)).2 ∧
      ∃ A, _format_text_for_chatbox text =
        A ++ '\n' :: restoreBrackets (collapseWs u)
          (protectText (normalizeNewlines text)).2 := by
  have hsegs : ∀ seg ∈ (protectText (normalizeNewlines text)).2, '\n' ∉ seg := by
    intro seg hseg
    obtain ⟨raw, hraw⟩ := protectGo_segs _ 0 _ seg hseg
    rw [hraw]
    exact collapseWs_no_newline raw
  obtain ⟨idx, hsf, hc, hu⟩ := split_some_inv h
  have hguards : strip ((normalizeNewlines
        (protectText (normalizeNewlines text)).1).take idx) ≠ [] ∧
      strip ((normalizeNewlines
        (protectText (normalizeNewlines text)).1).drop (idx + d.length)) ≠ [] := by
    rcases splitFound_some hsf with ⟨hd, hfld⟩ | ⟨hd, hnone, hfld⟩ <;>
      [skip; skip] <;>
      · obtain ⟨hr, hleft, hright⟩ := find_last_delim_some hfld
        subst hd
        exact ⟨hleft, hright⟩
  obtain ⟨hleft, hright⟩ := hguards
  have hu_ne : u ≠ [] := by rw [hu]; exact hright
  have hu_nonspace : ∃ ch ∈ u, isSpacePy ch = false := by
    rcases hq : u with _ | ⟨a, r⟩
    · exact absurd hq hu_ne
    · have hstr : lstrip (rstrip ((normalizeNewlines
          (protectText (normalizeNewlines text)).1).drop (idx + d.length))) = a :: r := by
        rw [← hq, hu]
        rfl
      exact ⟨a, by simp [hq], lstrip_head hstr⟩
  obtain ⟨chu, hchu_mem, hchu_ns⟩ := hu_nonspace
  have hul_ne : collapseWs u ≠ [] := collapseWs_ne_nil_of_nonspace hchu_mem hchu_ns
  have hul_nl : '\n' ∉ collapseWs u := collapseWs_no_newline u
  have hc_nonspace : ∃ ch ∈ c, isSpacePy ch = false := by
    rcases hq : strip ((normalizeNewlines
        (protectText (normalizeNewlines text)).1).take idx) with _ | ⟨a, r⟩
    · exact absurd hq hleft
    · have hstr : lstrip (rstrip ((normalizeNewlines
          (protectText (normalizeNewlines text)).1).take idx)) = a :: r := hq
      have hans : isSpacePy a = false := lstrip_head hstr
      refine ⟨a, ?_, hans⟩
      rw [hc]
      have h1 : a ∈ lstrip (rstrip ((normalizeNewlines
          (protectText (normalizeNewlines text)).1).take idx)) := by
        rw [hstr]
        simp
      exact (List.dropWhile_sublist _).subset h1
  have hcf_ne : rstrip (_insert_newlines_after_sentence_enders c) ≠ [] := by
    obtain ⟨ch, hmem, hns⟩ := hc_nonspace
    exact List.ne_nil_of_mem
      (mem_rstrip_of_nonspace (mem_insert_newlines_of_nonspace hns hmem) hns)
  have htext_ne : text ≠ [] := by
    intro hx
    subst hx
    have h0 : _split_confirmed_unconfirmed
        (protectText (normalizeNewlines ([] : List Char))).1 = none := rfl
    rw [h0] at h
    exact Option.noConfusion h
  have hfmt1 : _format_text_for_chatbox text =
      (if rstrip (_insert_newlines_after_sentence_enders c) = [] then collapseWs u
       else if collapseWs u = [] then
         restoreBrackets (rstrip (_insert_newlines_after_sentence_enders c))
           (protectText (normalizeNewlines text)).2
       else
         restoreBrackets
           (rstrip (_insert_newlines_after_sentence_enders c) ++ d ++
             '\n' :: collapseWs u)
           (protectText (normalizeNewlines text)).2) := by
    unfold _format_text_for_chatbox
    rw [if_neg htext_ne, h]
  rw [if_neg hcf_ne, if_neg hul_ne] at hfmt1
  have hdist : restoreBrackets
      (rstrip (_insert_newlines_after_sentence_enders c) ++ d ++
        '\n' :: collapseWs u) (protectText (normalizeNewlines text)).2 =
      restoreFrom 0 (rstrip (_insert_newlines_after_sentence_enders c) ++ d)
          (protectText (normalizeNewlines text)).2 ++
        '\n' :: restoreFrom 0 (collapseWs u)
          (protectText (normalizeNewlines text)).2 := by
    unfold restoreBrackets
    rw [show rstrip (_insert_newlines_after_sentence_enders c) ++ d ++
        '\n' :: collapseWs u =
        (rstrip (_insert_newlines_after_sentence_enders c) ++ d) ++
          '\n' :: collapseWs u from by rw [List.append_assoc]]
    exact restoreFrom_split _ 0 _ _
  refine ⟨restoreFrom_no_newline _ 0 _ hul_nl hsegs,
    ⟨restoreFrom 0 (rstrip (_insert_newlines_after_sentence_enders c) ++ d)
      (protectText (normalizeNewlines text)).2, ?_⟩⟩
  rw [hfmt1, hdist]
  rfl

theorem c8_unconfirmed_single_line_witness :
    _split_confirmed_unconfirmed
        (protectText (normalizeNewlines ("A...B".data))).1 =
      some ("A".data, dots3, "B".data) ∧
      ('\n' ∉ restoreBrackets (collapseWs ("B".data))
          (protectText (normalizeNewlines ("A...B".data))).2 ∧
        ∃ A, _format_text_for_chatbox ("A...B".data) =
          A ++ '\n' :: restoreBrackets (collapseWs ("B".data))
            (protectText (normalizeNewlines ("A...B".data))).2) :=
  ⟨by decide,
    c8_unconfirmed_single_line ("A...B".data) ("A".data) dots3 ("B".data) (by decide)⟩
